import Mathlib

/-!
Verification development for a generic directed-graph container with a
TGF-like (Trivial Graph Format) text codec, modelled from `src/lib.rs`.

The data model (`Graph`, `Node`), the mutation operations (`add_node`,
`remove_node`, `add_edge`, `remove_edge`), the depth-first traversal
(`node_ids` / `dfs`) and the text codec (`get_tgf` / `fromTgf`) are shallow
embeddings of the corresponding Rust functions.  Rust `usize` is modelled by
`Nat`; `parse::<usize>()` keeps the `2^64` overflow bound (64-bit target).
Mutating methods returning `Result<(), GraphError>` are modelled as pure
functions returning the result value together with the new state.  A call
that panics in Rust (a failed `unwrap`) is modelled by `none` / `.panic`.
File input is modelled at the byte/character level: `linesOf` embeds
`BufReader::lines` (splitting at newline bytes and stripping a trailing
carriage return from newline-terminated lines); `File::open` errors
(`IoError`) stay outside the model.
-/

set_option maxHeartbeats 1000000

namespace TGF

variable {T : Type} {α : Type}

/-- Error kinds of the library (`GraphError` in the source).  `TgfError` is
the format-error kind that the specification calls `FormatError`. -/
inductive GraphError where
  | IdNotExist
  | IoError
  | TgfError
deriving DecidableEq

/-- A node record: identifier, payload and the ordered adjacency list
(called `paths` in the source). -/
structure Node (T : Type) where
  id : Nat
  data : T
  paths : List Nat
deriving DecidableEq

/-- The container: the allocator counter `next_id` and the node sequence. -/
structure Graph (T : Type) where
  next_id : Nat
  nodes : List (Node T)
deriving DecidableEq

/-- `Node::new`: a fresh node with empty adjacency. -/
def Node.new (id : Nat) (data : T) : Node T := ⟨id, data, []⟩

/-- `Node::add_path`: append `id` unless it is already present. -/
def Node.add_path (n : Node T) (id : Nat) : Node T :=
  if id ∈ n.paths then n else ⟨n.id, n.data, n.paths ++ [id]⟩

/-- `Node::remove_path`: remove the first occurrence of `p`, if any. -/
def Node.remove_path (n : Node T) (p : Nat) : Node T :=
  ⟨n.id, n.data, n.paths.erase p⟩

/-- `Graph::new`: the empty container. -/
def Graph.new : Graph T := ⟨0, []⟩

/-- `Graph::contains`: linear scan comparing node ids. -/
def Graph.contains (g : Graph T) (i : Nat) : Bool :=
  g.nodes.any (fun n => n.id == i)

/-- `Graph::add_node`: push a node carrying `next_id`, bump the counter and
return the assigned identifier. -/
def Graph.add_node (g : Graph T) (d : T) : Graph T × Nat :=
  (⟨g.next_id + 1, g.nodes ++ [Node.new g.next_id d]⟩, g.next_id)

/-- Remove the first element satisfying `p` (models
`iter().position(...)` followed by `Vec::remove`). -/
def removeFirst (p : α → Bool) : List α → List α
  | [] => []
  | a :: as => if p a then as else a :: removeFirst p as

/-- Apply `f` to the first element satisfying `p` (models
`iter().position(...)` followed by `get_mut` and a mutation). -/
def updateFirst (p : α → Bool) (f : α → α) : List α → List α
  | [] => []
  | a :: as => if p a then f a :: as else a :: updateFirst p f as

/-- `Graph::remove_node`: if present, strip the id from every other node's
adjacency, then remove the node itself. -/
def Graph.remove_node (g : Graph T) (i : Nat) : Except GraphError Unit × Graph T :=
  if g.contains i then
    (Except.ok (),
      ⟨g.next_id,
        removeFirst (fun n => n.id == i)
          (g.nodes.map (fun n => if n.id ≠ i then n.remove_path i else n))⟩)
  else
    (Except.error GraphError.IdNotExist, g)

/-- `Graph::add_edge`: both endpoints must exist; insert into the first
node whose id is `a`. -/
def Graph.add_edge (g : Graph T) (a b : Nat) : Except GraphError Unit × Graph T :=
  if g.contains a && g.contains b then
    (Except.ok (),
      ⟨g.next_id, updateFirst (fun n => n.id == a) (fun n => n.add_path b) g.nodes⟩)
  else
    (Except.error GraphError.IdNotExist, g)

/-- `Graph::remove_edge`: both endpoints must exist; erase from the first
node whose id is `a`. -/
def Graph.remove_edge (g : Graph T) (a b : Nat) : Except GraphError Unit × Graph T :=
  if g.contains a && g.contains b then
    (Except.ok (),
      ⟨g.next_id, updateFirst (fun n => n.id == a) (fun n => n.remove_path b) g.nodes⟩)
  else
    (Except.error GraphError.IdNotExist, g)

/-- The loop body of `Graph::dfs` with the recursive call inlined.  In the
source, `dfs(id, visited)` pushes `id` and then iterates over
`nodes.get(id).unwrap().paths()`, recursing on every target not yet
visited; a failed `get(...).unwrap()` is a panic, modelled as `none`.  The
returned subtype records that the visited list only ever grows, which also
drives the termination measure. -/
def dfsGo (g : Graph T) : (ps : List Nat) → (vis : List Nat) →
    Option {l : List Nat // ∀ x ∈ vis, x ∈ l}
  | [], vis => some ⟨vis, fun _ h => h⟩
  | p :: ps, vis =>
    if hp : p ∈ vis then dfsGo g ps vis
    else
      if hplt : p < g.nodes.length then
        (dfsGo g (g.nodes[p]).paths (vis ++ [p])).bind (fun r1 =>
          (dfsGo g ps r1.val).map (fun r2 =>
            ⟨r2.val, fun x hx => r2.property x (r1.property x (List.mem_append_left _ hx))⟩))
      else none
termination_by ps vis => ((Finset.range g.nodes.length \ vis.toFinset).card, ps.length)
decreasing_by
  · apply Prod.Lex.right
    simp
  · apply Prod.Lex.left
    apply Finset.card_lt_card
    rw [Finset.ssubset_iff_of_subset]
    · exact ⟨p, by simp [hplt, hp], by simp⟩
    · intro x hx
      simp only [Finset.mem_sdiff, Finset.mem_range, List.toFinset_append,
        Finset.mem_union, List.mem_toFinset] at hx ⊢
      exact ⟨hx.1, fun hc => hx.2 (Or.inl hc)⟩
  · apply Prod.Lex.left
    apply Finset.card_lt_card
    rw [Finset.ssubset_iff_of_subset]
    · refine ⟨p, by simp [hplt, hp], ?_⟩
      simp only [Finset.mem_sdiff, Finset.mem_range, List.mem_toFinset, not_and, not_not]
      intro _
      exact r1.property p (by simp)
    · intro x hx
      simp only [Finset.mem_sdiff, Finset.mem_range, List.mem_toFinset] at hx ⊢
      refine ⟨hx.1, fun hc => hx.2 (r1.property x ?_)⟩
      simp [hc]

/-- `Graph::dfs`: push the start id, look the node up positionally (panic
when absent) and walk its adjacency via `dfsGo`. -/
def Graph.dfs (g : Graph T) (i : Nat) (visited : List Nat) : Option (List Nat) :=
  (g.nodes[i]?).bind (fun nd => (dfsGo g nd.paths (visited ++ [i])).map Subtype.val)

/-- `Graph::node_ids`: depth-first reachability from identifier 0. -/
def Graph.node_ids (g : Graph T) : Option (List Nat) :=
  g.dfs 0 []

/-- The counter invariant: `next_id` is strictly above every node id. -/
def GraphInv (g : Graph T) : Prop := ∀ n ∈ g.nodes, n.id < g.next_id

/-! ### Text layer: decimal printing and parsing -/

/-- The decimal digit character for a digit value (9 for anything above 8,
which is unreachable for values produced by `% 10`). -/
def dchar : Nat → Char
  | 0 => '0'
  | 1 => '1'
  | 2 => '2'
  | 3 => '3'
  | 4 => '4'
  | 5 => '5'
  | 6 => '6'
  | 7 => '7'
  | 8 => '8'
  | _ => '9'

/-- Accumulating loop of the decimal printer. -/
def decGo : Nat → List Char → List Char
  | 0, acc => acc
  | n + 1, acc => decGo ((n + 1) / 10) (dchar ((n + 1) % 10) :: acc)
decreasing_by
  exact Nat.div_lt_self (Nat.succ_pos n) (by omega)

/-- Decimal representation of a `usize`, as printed by `format!("{}", n)`. -/
def decimalRepr (n : Nat) : List Char :=
  if n = 0 then ['0'] else decGo n []

/-- Numeric value of a digit character. -/
def digitVal (c : Char) : Nat := c.toNat - 48

/-- Value of a digit string, most significant digit first. -/
def natOfDigits (cs : List Char) : Nat :=
  cs.foldl (fun a c => 10 * a + digitVal c) 0

/-- `str::parse::<usize>()`: an optional leading `+`, then a nonempty run
of ASCII digits, rejecting values that overflow 64-bit `usize`. -/
def parseUsize (cs : List Char) : Option Nat :=
  let ds := if cs.head? = some '+' then cs.tail else cs
  if ds ≠ [] ∧ ds.all Char.isDigit then
    if natOfDigits ds < 2 ^ 64 then some (natOfDigits ds) else none
  else none

/-- Match of the regex `(\d+)\s(.+)` anchored at the start of `cs`: a
maximal nonempty digit run, one whitespace character, then a nonempty rest
(`.` stops at a newline).  Backtracking the digit run is vacuous because a
digit is never whitespace, so only the maximal run can match. -/
def reMatchAt (cs : List Char) : Option (List Char × List Char) :=
  let ds := cs.takeWhile Char.isDigit
  if ds = [] then none
  else
    match cs.dropWhile Char.isDigit with
    | [] => none
    | w :: r2 =>
      if w.isWhitespace then
        let cap2 := r2.takeWhile (fun c => c != '\n')
        if cap2 = [] then none else some (ds, cap2)
      else none

/-- `Regex::captures` for `(\d+)\s(.+)`: leftmost match, scanning forward
one character at a time. -/
def rustCaptures : List Char → Option (List Char × List Char)
  | [] => none
  | c :: rest =>
    match reMatchAt (c :: rest) with
    | some r => some r
    | none => rustCaptures rest

/-- Accumulating loop of `str::split_whitespace`. -/
def splitWsAux : List Char → List Char → List (List Char)
  | acc, [] => if acc = [] then [] else [acc.reverse]
  | acc, c :: rest =>
    if c.isWhitespace then
      if acc = [] then splitWsAux [] rest else acc.reverse :: splitWsAux [] rest
    else splitWsAux (c :: acc) rest

/-- `str::split_whitespace`: maximal runs of non-whitespace characters. -/
def splitWs (cs : List Char) : List (List Char) :=
  splitWsAux [] cs

/-- Strip one trailing carriage return (the CRLF handling of
`BufRead::lines`). -/
def stripCr (cs : List Char) : List Char :=
  if cs.getLast? = some '\r' then cs.dropLast else cs

/-- Accumulating loop of the line splitter: newline-terminated lines are
emitted with a trailing `\r` stripped; a final unterminated line is
emitted as is. -/
def splitLinesAux : List Char → List Char → List (List Char)
  | acc, [] => if acc = [] then [] else [acc.reverse]
  | acc, c :: rest =>
    if c = '\n' then stripCr acc.reverse :: splitLinesAux [] rest
    else splitLinesAux (c :: acc) rest

/-- `BufReader::lines` over the full file contents. -/
def linesOf (s : String) : List String :=
  (splitLinesAux [] s.data).map String.mk

/-! ### Text layer: serializer (`get_tgf`) -/

/-- Characters of a node line: `<id> <encoded-data>`. -/
def nodeLineChars (enc : T → String) (n : Node T) : List Char :=
  decimalRepr n.id ++ ' ' :: (enc n.data).data

/-- `Node::get_tgf_node`: `format!("{} {}\n", id, encoded-data)`, with the
payload encoding (`serde_json::to_string`) abstracted as `enc`. -/
def Node.get_tgf_node (enc : T → String) (n : Node T) : String :=
  String.mk (nodeLineChars enc n ++ ['\n'])

/-- Characters of an edge line: the id followed by one space-prefixed
decimal per adjacency target, in adjacency order. -/
def edgeLineChars (n : Node T) : List Char :=
  decimalRepr n.id ++ (n.paths.map (fun p => ' ' :: decimalRepr p)).flatten

/-- `Node::get_tgf_paths`: the edge line for a node with at least one
adjacency entry, the empty string otherwise. -/
def Node.get_tgf_paths (n : Node T) : String :=
  if n.paths.length > 0 then String.mk (edgeLineChars n ++ ['\n']) else ""

/-- `Graph::get_tgf`: all node lines, the separator `#`, then all
(nonempty) edge lines, in storage order. -/
def Graph.get_tgf (enc : T → String) (g : Graph T) : String :=
  String.join (g.nodes.map (Node.get_tgf_node enc)) ++ "#\n" ++
    String.join (g.nodes.map Node.get_tgf_paths)

/-! ### Text layer: parser (`from_tgf_file`) -/

/-- Outcome of a parse: the source returns `Result<Graph, GraphError>` but
can also panic on a failed `unwrap`, modelled by `panic`. -/
inductive PResult (T : Type) where
  | ok (g : Graph T)
  | err (e : GraphError)
  | panic
deriving DecidableEq

/-- Outcome of processing the target tokens of one edge line. -/
inductive EdgeStep (T : Type) where
  | next (ns : List (Node T))
  | err (e : GraphError)
  | panic
deriving DecidableEq

/-- Apply `f` at index `i`, leaving the list unchanged when `i` is out of
range (models `get_mut` followed by a mutation inside `if let Some`). -/
def modifyIdx (f : α → α) : Nat → List α → List α
  | _, [] => []
  | 0, a :: as => f a :: as
  | i + 1, a :: as => a :: modifyIdx f i as

/-- Loop over the target tokens of an edge line: each token must parse as
`usize` (else panic) and must name a declared node id (else `TgfError`);
the target is appended at storage position `ni` when that position exists,
and silently dropped otherwise. -/
def procEdge (ids : List Nat) : List (List Char) → Nat → List (Node T) → EdgeStep T
  | [], _, ns => EdgeStep.next ns
  | t :: ts, ni, ns =>
    match parseUsize t with
    | none => EdgeStep.panic
    | some p =>
      if ids.contains p then
        procEdge ids ts ni (modifyIdx (fun nd => nd.add_path p) ni ns)
      else EdgeStep.err GraphError.TgfError

/-- The final fold of `from_tgf_file`: the running maximum of the parsed
ids, starting from 0 (`if *node_id > next_id { next_id = *node_id }`). -/
def maxFold (ids : List Nat) : Nat :=
  ids.foldl (fun a i => if i > a then i else a) 0

/-- Line loop of `from_tgf_file` over the remaining lines, carrying the
accumulated nodes, the accumulated declared ids, and the (badly named)
`after` flag which the source initialises to `true` and clears at the
separator, so `after = true` means "before the separator".  The payload
decoding (`serde_json::from_str`) is abstracted as `dec`; a decode failure
panics through `unwrap`. -/
def fromTgfAux (dec : String → Option T) :
    List String → List (Node T) → List Nat → Bool → PResult T
  | [], ns, ids, _ => PResult.ok ⟨maxFold ids + 1, ns⟩
  | line :: rest, ns, ids, after =>
    if line = "#" then fromTgfAux dec rest ns ids false
    else if after then
      match rustCaptures line.data with
      | none => PResult.panic
      | some (ds, cap2) =>
        match parseUsize ds with
        | none => PResult.panic
        | some i =>
          match dec (String.mk cap2) with
          | none => PResult.panic
          | some d =>
            if ns.any (fun n => n.id == i) then PResult.err GraphError.TgfError
            else fromTgfAux dec rest (ns ++ [Node.new i d]) (ids ++ [i]) after
    else
      match splitWs line.data with
      | [] => fromTgfAux dec rest ns ids after
      | t0 :: ts =>
        match parseUsize t0 with
        | none => PResult.panic
        | some ni =>
          match procEdge ids ts ni ns with
          | EdgeStep.panic => PResult.panic
          | EdgeStep.err e => PResult.err e
          | EdgeStep.next ns1 => fromTgfAux dec rest ns1 ids after

/-- `from_tgf_file` on the list of lines of the file. -/
def fromTgfLines (dec : String → Option T) (lines : List String) : PResult T :=
  fromTgfAux dec lines [] [] true

/-- `from_tgf_file` on the full file contents (the `File::open` I/O error
path stays outside the model). -/
def fromTgf (dec : String → Option T) (s : String) : PResult T :=
  fromTgfLines dec (linesOf s)

/-! ### Helper lemmas about the mutation operations -/

theorem Node.add_path_id (n : Node T) (b : Nat) : (n.add_path b).id = n.id := by
  unfold Node.add_path
  split <;> rfl

theorem Node.remove_path_id (n : Node T) (b : Nat) : (n.remove_path b).id = n.id := rfl

theorem Node.add_path_add_path_self (n : Node T) (b : Nat) :
    (n.add_path b).add_path b = n.add_path b := by
  unfold Node.add_path
  by_cases h : b ∈ n.paths <;> simp [h]

theorem mem_of_mem_removeFirst {p : α → Bool} {l : List α} {x : α}
    (h : x ∈ removeFirst p l) : x ∈ l := by
  induction l with
  | nil => simp [removeFirst] at h
  | cons a as ih =>
    simp only [removeFirst] at h
    split at h
    · exact List.mem_cons_of_mem _ h
    · rcases List.mem_cons.mp h with h | h
      · exact h ▸ List.mem_cons_self a as
      · exact List.mem_cons_of_mem _ (ih h)

theorem mem_updateFirst {p : α → Bool} {f : α → α} {l : List α} {x : α}
    (h : x ∈ updateFirst p f l) : x ∈ l ∨ ∃ a ∈ l, x = f a := by
  induction l with
  | nil => simp [updateFirst] at h
  | cons a as ih =>
    simp only [updateFirst] at h
    split at h
    · rcases List.mem_cons.mp h with h | h
      · exact Or.inr ⟨a, List.mem_cons_self a as, h⟩
      · exact Or.inl (List.mem_cons_of_mem _ h)
    · rcases List.mem_cons.mp h with h | h
      · exact Or.inl (h ▸ List.mem_cons_self a as)
      · rcases ih h with h | ⟨b, hb, hx⟩
        · exact Or.inl (List.mem_cons_of_mem _ h)
        · exact Or.inr ⟨b, List.mem_cons_of_mem _ hb, hx⟩

theorem updateFirst_map_id {p : Node T → Bool} {f : Node T → Node T}
    (hf : ∀ n, (f n).id = n.id) (l : List (Node T)) :
    (updateFirst p f l).map Node.id = l.map Node.id := by
  induction l with
  | nil => rfl
  | cons a as ih =>
    simp only [updateFirst]
    split <;> simp [hf, ih]

theorem any_id_eq_map (l : List (Node T)) (i : Nat) :
    (l.any fun n => n.id == i) = ((l.map Node.id).any fun x => x == i) := by
  induction l with
  | nil => rfl
  | cons a as ih => simp [List.any_cons, ih]

theorem any_eq_of_map_id_eq {l l' : List (Node T)}
    (h : l.map Node.id = l'.map Node.id) (i : Nat) :
    (l.any fun n => n.id == i) = (l'.any fun n => n.id == i) := by
  rw [any_id_eq_map, any_id_eq_map, h]

theorem updateFirst_eq_self {p : α → Bool} {f : α → α} {l : List α}
    (h : ∀ a ∈ l, p a = true → f a = a) : updateFirst p f l = l := by
  induction l with
  | nil => rfl
  | cons a as ih =>
    simp only [updateFirst]
    split
    · rw [h a (List.mem_cons_self a as) (by assumption)]
    · rw [ih (fun b hb => h b (List.mem_cons_of_mem _ hb))]

theorem removeFirst_no_match {l : List (Node T)} {i : Nat}
    (hn : (l.map Node.id).Nodup) {n : Node T}
    (hmem : n ∈ removeFirst (fun x => x.id == i) l) : n.id ≠ i ∧ n ∈ l := by
  induction l with
  | nil => simp [removeFirst] at hmem
  | cons a as ih =>
    simp only [List.map_cons, List.nodup_cons] at hn
    simp only [removeFirst] at hmem
    split at hmem
    · rename_i hpa
      have ha : a.id = i := by simpa using hpa
      refine ⟨?_, List.mem_cons_of_mem _ hmem⟩
      intro hni
      exact hn.1 (ha ▸ hni ▸ List.mem_map_of_mem Node.id hmem)
    · rename_i hpa
      rcases List.mem_cons.mp hmem with h | h
      · exact ⟨by subst h; simpa using hpa, h ▸ List.mem_cons_self a as⟩
      · rcases ih hn.2 h with ⟨h1, h2⟩
        exact ⟨h1, List.mem_cons_of_mem _ h2⟩

/-! ### Claims about the mutation operations -/

/-- Claim C4: for every container (with duplicate-free node ids and adjacency
lists, as every container built through the API has) and every identifier
`i` present in it, after a successful `remove_node i` no remaining node has
id `i` and no remaining node's adjacency list contains `i`. -/
theorem c4_remove_node_clean (g : Graph T) (i : Nat)
    (hpaths : ∀ n ∈ g.nodes, n.paths.Nodup)
    (hids : (g.nodes.map Node.id).Nodup)
    (hc : g.contains i = true) :
    ∀ n ∈ (g.remove_node i).2.nodes, n.id ≠ i ∧ i ∉ n.paths := by
  intro n hn
  simp only [Graph.remove_node, hc, if_true] at hn
  have hmap : ((g.nodes.map (fun n => if n.id ≠ i then n.remove_path i else n)).map Node.id)
      = g.nodes.map Node.id := by
    rw [List.map_map]
    refine List.map_congr_left ?_
    intro a _
    by_cases h : a.id = i <;> simp [h, Node.remove_path_id, Function.comp]
  rcases removeFirst_no_match (hmap ▸ hids) hn with ⟨hni, hmem⟩
  refine ⟨hni, ?_⟩
  rcases List.mem_map.mp hmem with ⟨m, hm, hfm⟩
  by_cases hmi : m.id = i
  · rw [if_neg (by simp [hmi])] at hfm
    exact absurd (hfm ▸ hmi) hni
  · rw [if_pos hmi] at hfm
    subst hfm
    intro hin
    have := (List.Nodup.mem_erase_iff (hpaths m hm)).mp hin
    exact this.1 rfl

/-- Claim C4 witness: removing node 1 from a concrete two-node container with
edges 0→1 and 1→1 leaves the single node 0 with id ≠ 1 and without 1 in
its adjacency list. -/
theorem c4_remove_node_clean_witness :
    (Node.mk 0 "cat" [] : Node String).id ≠ 1 ∧
      1 ∉ (Node.mk 0 "cat" [] : Node String).paths :=
  c4_remove_node_clean (⟨2, [⟨0, "cat", [1]⟩, ⟨1, "car", [1]⟩]⟩ : Graph String) 1
    (by decide) (by decide) (by decide) (Node.mk 0 "cat" []) (by decide)

/-- Claim C5: `add_edge` and `remove_edge` with an endpoint that is not the id
of any node return `IdNotExist` and leave the container unmodified. -/
theorem c5_edge_missing_id (g : Graph T) (a b : Nat)
    (h : g.contains a = false ∨ g.contains b = false) :
    g.add_edge a b = (Except.error GraphError.IdNotExist, g) ∧
      g.remove_edge a b = (Except.error GraphError.IdNotExist, g) := by
  have hc : (g.contains a && g.contains b) = false := by
    rcases h with h | h <;> simp [h]
  constructor
  · simp [Graph.add_edge, hc]
  · simp [Graph.remove_edge, hc]

/-- Claim C5 witness: `add_edge 34 0` and `remove_edge 34 0` on a concrete
two-node container fail with `IdNotExist` and leave it unchanged. -/
theorem c5_edge_missing_id_witness :
    (⟨2, [⟨0, "cat", []⟩, ⟨1, "car", []⟩]⟩ : Graph String).add_edge 34 0
        = (Except.error GraphError.IdNotExist, ⟨2, [⟨0, "cat", []⟩, ⟨1, "car", []⟩]⟩) ∧
      (⟨2, [⟨0, "cat", []⟩, ⟨1, "car", []⟩]⟩ : Graph String).remove_edge 34 0
        = (Except.error GraphError.IdNotExist, ⟨2, [⟨0, "cat", []⟩, ⟨1, "car", []⟩]⟩) :=
  c5_edge_missing_id (⟨2, [⟨0, "cat", []⟩, ⟨1, "car", []⟩]⟩ : Graph String) 34 0
    (Or.inl (by decide))

/-- Claim C6: with both endpoints present, a second `add_edge a b` succeeds and
returns exactly the state produced by the first call (idempotence,
preserving adjacency insertion order). -/
theorem c6_add_edge_idempotent (g : Graph T) (a b : Nat)
    (h1 : g.contains a = true) (h2 : g.contains b = true) :
    (g.add_edge a b).2.add_edge a b = (Except.ok (), (g.add_edge a b).2) := by
  have hcond : (g.contains a && g.contains b) = true := by simp [h1, h2]
  have hmap : (updateFirst (fun n => n.id == a) (fun n => n.add_path b) g.nodes).map Node.id
      = g.nodes.map Node.id :=
    updateFirst_map_id (fun n => Node.add_path_id n b) g.nodes
  have hg1 : (g.add_edge a b).2
      = ⟨g.next_id, updateFirst (fun n => n.id == a) (fun n => n.add_path b) g.nodes⟩ := by
    simp [Graph.add_edge, hcond]
  have hca : ((⟨g.next_id, updateFirst (fun n => n.id == a) (fun n => n.add_path b) g.nodes⟩ :
      Graph T).contains a) = true := by
    unfold Graph.contains at h1 ⊢
    rw [any_eq_of_map_id_eq hmap a]
    exact h1
  have hcb : ((⟨g.next_id, updateFirst (fun n => n.id == a) (fun n => n.add_path b) g.nodes⟩ :
      Graph T).contains b) = true := by
    unfold Graph.contains at h2 ⊢
    rw [any_eq_of_map_id_eq hmap b]
    exact h2
  have hfix : ∀ l : List (Node T),
      updateFirst (fun n => n.id == a) (fun n => n.add_path b)
        (updateFirst (fun n => n.id == a) (fun n => n.add_path b) l)
      = updateFirst (fun n => n.id == a) (fun n => n.add_path b) l := by
    intro l
    induction l with
    | nil => rfl
    | cons x xs ih =>
      simp only [updateFirst]
      split
      · rename_i hx
        simp only [updateFirst, Node.add_path_id, hx, if_pos]
        rw [Node.add_path_add_path_self]
      · rename_i hx
        simp only [updateFirst, hx, if_neg, ih]
        simp [hx, ih]
  rw [hg1]
  simp only [Graph.add_edge, hca, hcb, Bool.and_self, if_true]
  rw [hfix]

/-- Claim C6 witness: adding edge 0→1 twice to a concrete two-node container
equals adding it once, and the second call succeeds. -/
theorem c6_add_edge_idempotent_witness :
    ((⟨2, [⟨0, "cat", []⟩, ⟨1, "car", []⟩]⟩ : Graph String).add_edge 0 1).2.add_edge 0 1
      = (Except.ok (), ((⟨2, [⟨0, "cat", []⟩, ⟨1, "car", []⟩]⟩ : Graph String).add_edge 0 1).2) :=
  c6_add_edge_idempotent (⟨2, [⟨0, "cat", []⟩, ⟨1, "car", []⟩]⟩ : Graph String) 0 1
    (by decide) (by decide)

/-- Claim C7: the empty container satisfies "`next_id` is strictly greater than
every node id"; the predicate is preserved by `add_node`, `remove_node`,
`add_edge` and `remove_edge`; `remove_node` never decreases the counter;
and the identifier allocated right after removing node `i` differs from
`i` (freed identifiers are never reused). -/
theorem c7_next_id_invariant (g : Graph T) (d : T) (a b i : Nat) (h : GraphInv g) :
    GraphInv (Graph.new : Graph T) ∧
      GraphInv (g.add_node d).1 ∧
      GraphInv (g.remove_node i).2 ∧
      GraphInv (g.add_edge a b).2 ∧
      GraphInv (g.remove_edge a b).2 ∧
      (g.remove_node i).2.next_id = g.next_id ∧
      (g.contains i = true → ((g.remove_node i).2.add_node d).2 ≠ i) := by
  have hremove_next : (g.remove_node i).2.next_id = g.next_id := by
    unfold Graph.remove_node
    split <;> rfl
  refine ⟨?_, ?_, ?_, ?_, ?_, hremove_next, ?_⟩
  · intro n hn
    simp [Graph.new] at hn
  · intro n hn
    simp only [Graph.add_node] at hn ⊢
    rcases List.mem_append.mp hn with hn | hn
    · exact Nat.lt_succ_of_lt (h n hn)
    · simp only [List.mem_singleton] at hn
      subst hn
      exact Nat.lt_succ_self _
  · intro n hn
    by_cases hgc : g.contains i = true
    · simp only [Graph.remove_node, hgc, if_true] at hn ⊢
      have hn' := mem_of_mem_removeFirst hn
      rcases List.mem_map.mp hn' with ⟨m, hm, hfm⟩
      have hid : n.id = m.id := by
        subst hfm
        by_cases hmi : m.id = i <;> simp [hmi, Node.remove_path_id]
      exact hid ▸ h m hm
    · simp only [Graph.remove_node, hgc, if_false] at hn ⊢
      exact h n hn
  · intro n hn
    by_cases hgc : (g.contains a && g.contains b) = true
    · simp only [Graph.add_edge, hgc, if_true] at hn ⊢
      rcases mem_updateFirst hn with hn | ⟨m, hm, hfm⟩
      · exact h n hn
      · subst hfm
        rw [Node.add_path_id]
        exact h m hm
    · simp only [Graph.add_edge, hgc, if_false] at hn ⊢
      exact h n hn
  · intro n hn
    by_cases hgc : (g.contains a && g.contains b) = true
    · simp only [Graph.remove_edge, hgc, if_true] at hn ⊢
      rcases mem_updateFirst hn with hn | ⟨m, hm, hfm⟩
      · exact h n hn
      · subst hfm
        rw [Node.remove_path_id]
        exact h m hm
    · simp only [Graph.remove_edge, hgc, if_false] at hn ⊢
      exact h n hn
  · intro hc
    have halloc : ((g.remove_node i).2.add_node d).2 = (g.remove_node i).2.next_id := rfl
    rw [halloc, hremove_next]
    unfold Graph.contains at hc
    rcases List.any_eq_true.mp hc with ⟨m, hm, hmi⟩
    have hmid : m.id = i := by simpa using hmi
    intro hcontra
    exact absurd (hcontra ▸ hmid ▸ h m hm) (lt_irrefl _)

/-- Claim C7 witness: the invariant holds for a concrete two-node container and
all the preserved forms at concrete arguments. -/
theorem c7_next_id_invariant_witness :
    GraphInv (Graph.new : Graph String) ∧
      GraphInv ((⟨2, [⟨0, "cat", []⟩, ⟨1, "car", [0]⟩]⟩ : Graph String).add_node "cow").1 ∧
      GraphInv ((⟨2, [⟨0, "cat", []⟩, ⟨1, "car", [0]⟩]⟩ : Graph String).remove_node 0).2 ∧
      GraphInv ((⟨2, [⟨0, "cat", []⟩, ⟨1, "car", [0]⟩]⟩ : Graph String).add_edge 0 1).2 ∧
      GraphInv ((⟨2, [⟨0, "cat", []⟩, ⟨1, "car", [0]⟩]⟩ : Graph String).remove_edge 1 0).2 ∧
      ((⟨2, [⟨0, "cat", []⟩, ⟨1, "car", [0]⟩]⟩ : Graph String).remove_node 0).2.next_id
        = (⟨2, [⟨0, "cat", []⟩, ⟨1, "car", [0]⟩]⟩ : Graph String).next_id ∧
      ((⟨2, [⟨0, "cat", []⟩, ⟨1, "car", [0]⟩]⟩ : Graph String).contains 0 = true →
        (((⟨2, [⟨0, "cat", []⟩, ⟨1, "car", [0]⟩]⟩ : Graph String).remove_node 0).2.add_node "cow").2 ≠ 0) := by
  have h := c7_next_id_invariant (⟨2, [⟨0, "cat", []⟩, ⟨1, "car", [0]⟩]⟩ : Graph String)
    "cow" 0 1 0 (by intro n hn; fin_cases hn <;> simp)
  rcases h with ⟨h1, h2, h3, h4, _, h6, h7⟩
  have h5 := c7_next_id_invariant (⟨2, [⟨0, "cat", []⟩, ⟨1, "car", [0]⟩]⟩ : Graph String)
    "cow" 1 0 0 (by intro n hn; fin_cases hn <;> simp)
  exact ⟨h1, h2, h3, h4, h5.2.2.2.2.1, h6, h7⟩

/-- Claim C9: with both endpoints present and `b` absent from `a`'s adjacency
list, `remove_edge a b` succeeds and leaves the container unchanged. -/
theorem c9_remove_absent_edge_noop (g : Graph T) (a b : Nat)
    (h1 : g.contains a = true) (h2 : g.contains b = true)
    (h3 : ∀ n ∈ g.nodes, n.id = a → b ∉ n.paths) :
    g.remove_edge a b = (Except.ok (), g) := by
  have hcond : (g.contains a && g.contains b) = true := by simp [h1, h2]
  simp only [Graph.remove_edge, hcond, if_true]
  have : updateFirst (fun n => n.id == a) (fun n => n.remove_path b) g.nodes = g.nodes := by
    apply updateFirst_eq_self
    intro n hn hp
    have hna : n.id = a := by simpa using hp
    have hb := h3 n hn hna
    unfold Node.remove_path
    rw [List.erase_of_not_mem hb]
  rw [this]

/-- Claim C9 witness: removing the absent edge 1→0 between two valid nodes of a
concrete container succeeds and changes nothing. -/
theorem c9_remove_absent_edge_noop_witness :
    (⟨2, [⟨0, "cat", [1]⟩, ⟨1, "car", []⟩]⟩ : Graph String).remove_edge 1 0
      = (Except.ok (), ⟨2, [⟨0, "cat", [1]⟩, ⟨1, "car", []⟩]⟩) :=
  c9_remove_absent_edge_noop (⟨2, [⟨0, "cat", [1]⟩, ⟨1, "car", []⟩]⟩ : Graph String) 1 0
    (by decide) (by decide) (by decide)

/-! ### Helper lemmas about the traversal -/

theorem dfsGo_sound (g : Graph T) (ps vis : List Nat) :
    ∀ r : {l : List Nat // ∀ x ∈ vis, x ∈ l}, dfsGo g ps vis = some r → vis.Nodup →
      (∀ x ∈ vis, x < g.nodes.length) →
      r.val.Nodup ∧ ∀ x ∈ r.val, x < g.nodes.length := by
  induction ps, vis using dfsGo.induct g with
  | case1 vis =>
    intro r hr hnd hlt
    rw [dfsGo] at hr
    cases hr
    exact ⟨hnd, hlt⟩
  | case2 p ps vis hp ih =>
    intro r hr hnd hlt
    rw [dfsGo, dif_pos hp] at hr
    exact ih r hr hnd hlt
  | case3 p ps vis hp hplt ih1 ih2 =>
    intro r hr hnd hlt
    rw [dfsGo, dif_neg hp, dif_pos hplt] at hr
    rcases h1 : dfsGo g (g.nodes[p]).paths (vis ++ [p]) with _ | r1
    · rw [h1] at hr
      exact Option.noConfusion hr
    · rw [h1, Option.some_bind] at hr
      rcases h2 : dfsGo g ps r1.val with _ | r2
      · rw [h2] at hr
        exact Option.noConfusion hr
      · rw [h2, Option.map_some'] at hr
        cases hr
        have hnd1 : (vis ++ [p]).Nodup := by
          simp [List.nodup_append, hnd, hp]
        have hlt1 : ∀ x ∈ vis ++ [p], x < g.nodes.length := by
          intro x hx
          rcases List.mem_append.mp hx with hx | hx
          · exact hlt x hx
          · simp only [List.mem_singleton] at hx
            exact hx ▸ hplt
        have hs1 := ih1 r1 h1 hnd1 hlt1
        exact ih2 r1 r2 h2 hs1.1 hs1.2
  | case4 p ps vis hp hplt =>
    intro r hr hnd hlt
    rw [dfsGo, dif_neg hp, dif_neg hplt] at hr
    exact Option.noConfusion hr

theorem dfsGo_total (g : Graph T)
    (hall : ∀ n ∈ g.nodes, ∀ p ∈ n.paths, p < g.nodes.length) (ps vis : List Nat) :
    (∀ p ∈ ps, p < g.nodes.length) → dfsGo g ps vis ≠ none := by
  induction ps, vis using dfsGo.induct g with
  | case1 vis =>
    intro _
    rw [dfsGo]
    exact Option.noConfusion
  | case2 p ps vis hp ih =>
    intro hps
    rw [dfsGo, dif_pos hp]
    exact ih (fun q hq => hps q (List.mem_cons_of_mem _ hq))
  | case3 p ps vis hp hplt ih1 ih2 =>
    intro hps
    rw [dfsGo, dif_neg hp, dif_pos hplt]
    have hmem : g.nodes[p] ∈ g.nodes := List.getElem_mem hplt
    have h1ne := ih1 (fun q hq => hall _ hmem q hq)
    rcases h1 : dfsGo g (g.nodes[p]).paths (vis ++ [p]) with _ | r1
    · exact absurd h1 h1ne
    · rw [Option.some_bind]
      have h2ne := ih2 r1 (fun q hq => hps q (List.mem_cons_of_mem _ hq))
      rcases h2 : dfsGo g ps r1.val with _ | r2
      · exact absurd h2 h2ne
      · rw [Option.map_some']
        exact Option.noConfusion
  | case4 p ps vis hp hplt =>
    intro hps
    exact absurd (hps p (List.mem_cons_self _ _)) hplt

theorem nodup_all_lt_length_le {l : List Nat} {N : Nat}
    (hnd : l.Nodup) (hlt : ∀ x ∈ l, x < N) : l.length ≤ N := by
  have hsub : l.toFinset ⊆ Finset.range N := by
    intro x hx
    rw [List.mem_toFinset] at hx
    rw [Finset.mem_range]
    exact hlt x hx
  calc l.length = l.toFinset.card := (List.toFinset_card_of_nodup hnd).symm
    _ ≤ (Finset.range N).card := Finset.card_le_card hsub
    _ = N := Finset.card_range N

/-- Claim C8: on a container satisfying the positional invariant (ids gap-free
ascending from 0 in storage order), with a node of identifier 0 and all
adjacency entries referencing present nodes, `node_ids` returns (does not
panic), contains no duplicate identifiers, and is no longer than the node
count. -/
theorem c8_node_ids_nodup (g : Graph T)
    (hpos : g.nodes.map Node.id = List.range g.nodes.length)
    (h0 : g.contains 0 = true)
    (htgt : ∀ n ∈ g.nodes, ∀ p ∈ n.paths, g.contains p = true) :
    ∃ l, g.node_ids = some l ∧ l.Nodup ∧ l.length ≤ g.nodes.length := by
  have hcont_lt : ∀ p, g.contains p = true → p < g.nodes.length := by
    intro p hc
    unfold Graph.contains at hc
    rcases List.any_eq_true.mp hc with ⟨m, hm, hmp⟩
    have : m.id = p := by simpa using hmp
    have hmem : p ∈ g.nodes.map Node.id := this ▸ List.mem_map_of_mem Node.id hm
    rw [hpos, List.mem_range] at hmem
    exact hmem
  have h0lt : 0 < g.nodes.length := hcont_lt 0 h0
  have hall : ∀ n ∈ g.nodes, ∀ p ∈ n.paths, p < g.nodes.length :=
    fun n hn p hp => hcont_lt p (htgt n hn p hp)
  unfold Graph.node_ids Graph.dfs
  rw [List.getElem?_eq_getElem h0lt, Option.some_bind]
  have htot := dfsGo_total g hall (g.nodes[0]).paths ([] ++ [0])
    (fun p hp => hall _ (List.getElem_mem h0lt) p hp)
  rcases hopt : dfsGo g (g.nodes[0]).paths ([] ++ [0]) with _ | r
  · exact absurd hopt htot
  · have hs := dfsGo_sound g (g.nodes[0]).paths ([] ++ [0]) r hopt
      (by simp) (by intro x hx; simp at hx; omega)
    rw [Option.map_some']
    exact ⟨r.val, rfl, hs.1, nodup_all_lt_length_le hs.1 hs.2⟩

/-- Claim C8 witness: the concrete container {0→1, 1→(none), 2→(none)} satisfies
the hypotheses, and its traversal is duplicate-free and short enough. -/
theorem c8_node_ids_nodup_witness :
    ∃ l, (⟨3, [⟨0, "a", [1]⟩, ⟨1, "b", []⟩, ⟨2, "c", []⟩]⟩ : Graph String).node_ids = some l ∧
      l.Nodup ∧ l.length ≤ (⟨3, [⟨0, "a", [1]⟩, ⟨1, "b", []⟩, ⟨2, "c", []⟩]⟩ :
        Graph String).nodes.length :=
  c8_node_ids_nodup (⟨3, [⟨0, "a", [1]⟩, ⟨1, "b", []⟩, ⟨2, "c", []⟩]⟩ : Graph String)
    (by decide) (by decide) (by decide)

/-! ### Helper lemmas about the parser -/

theorem modifyIdx_ge (f : α → α) (i : Nat) (l : List α) (h : l.length ≤ i) :
    modifyIdx f i l = l := by
  induction l generalizing i with
  | nil => cases i <;> rfl
  | cons a as ih =>
    cases i with
    | zero => simp at h
    | succ j =>
      simp only [modifyIdx]
      rw [ih j (by simpa using h)]

theorem modifyIdx_map_id {f : Node T → Node T} (hf : ∀ n, (f n).id = n.id)
    (i : Nat) (l : List (Node T)) :
    (modifyIdx f i l).map Node.id = l.map Node.id := by
  induction l generalizing i with
  | nil => cases i <;> rfl
  | cons a as ih =>
    cases i with
    | zero => simp [modifyIdx, hf]
    | succ j => simp [modifyIdx, ih]

theorem procEdge_out_of_range (ids : List Nat) (ts : List (List Char)) (n : Nat)
    (ns : List (Node T)) (hge : ns.length ≤ n)
    (hts : ∀ t ∈ ts, ∃ m, parseUsize t = some m ∧ ids.contains m = true) :
    procEdge ids ts n ns = EdgeStep.next ns := by
  induction ts with
  | nil => rfl
  | cons t ts ih =>
    rcases hts t (List.mem_cons_self _ _) with ⟨m, hm, hmem⟩
    simp only [procEdge, hm, hmem, if_true]
    rw [modifyIdx_ge _ _ _ hge]
    exact ih (fun u hu => hts u (List.mem_cons_of_mem _ hu))

theorem procEdge_ok_map_id (ids : List Nat) (ts : List (List Char)) (n : Nat)
    (ns ns1 : List (Node T)) (h : procEdge ids ts n ns = EdgeStep.next ns1) :
    ns1.map Node.id = ns.map Node.id := by
  induction ts generalizing ns with
  | nil =>
    simp only [procEdge] at h
    cases h
    rfl
  | cons t ts ih =>
    simp only [procEdge] at h
    rcases hpt : parseUsize t with _ | m
    · simp only [hpt] at h
      exact EdgeStep.noConfusion h
    · simp only [hpt] at h
      by_cases hmem : ids.contains m = true
      · rw [if_pos hmem] at h
        have := ih _ h
        rw [this, modifyIdx_map_id (fun nd => Node.add_path_id nd m)]
      · rw [if_neg hmem] at h
        exact EdgeStep.noConfusion h

/-- Claim C10: an edge line whose first token is a number at least the current
node count, and whose remaining tokens all parse and name declared ids, is
processed without failure or panic and changes nothing: parsing continues
on the rest of the input exactly as if the line were absent. -/
theorem c10_out_of_range_edge_line_skipped (dec : String → Option T)
    (rest : List String) (ns : List (Node T)) (ids : List Nat) (l : String)
    (t0 : List Char) (ts : List (List Char)) (n : Nat)
    (hsep : l ≠ "#")
    (htoks : splitWs l.data = t0 :: ts)
    (ht0 : parseUsize t0 = some n)
    (hge : ns.length ≤ n)
    (hts : ∀ t ∈ ts, ∃ m, parseUsize t = some m ∧ ids.contains m = true) :
    fromTgfAux dec (l :: rest) ns ids false = fromTgfAux dec rest ns ids false := by
  have hskip := procEdge_out_of_range ids ts n ns hge hts
  simp only [fromTgfAux, if_neg hsep, Bool.false_eq_true, if_false, htoks, ht0, hskip]

/-- Claim C10 witness: with one declared node, the edge line `5 0` is skipped
and parsing proceeds on the remaining lines unchanged. -/
theorem c10_out_of_range_edge_line_skipped_witness :
    fromTgfAux (fun s => some s) ["5 0"] [⟨0, "a", []⟩] [0] false
      = fromTgfAux (fun s => some s) [] [⟨0, "a", []⟩] [0] false :=
  c10_out_of_range_edge_line_skipped (fun s => some s) [] [⟨0, "a", []⟩] [0] "5 0"
    ['5'] [['0']] 5 (by decide) (by decide) (by decide) (by decide)
    (by
      intro t ht
      rw [List.mem_singleton] at ht
      subst ht
      exact ⟨0, by decide, by decide⟩)

/-- Claim C2 counterexample: on the input file `hello\n`, whose single
pre-separator line does not match the pattern digits-whitespace-rest,
`from_tgf_file` panics (the `unwrap` on a failed regex capture) and in
particular does not return the format-error value. -/
theorem c2_counterexample :
    fromTgf (fun s => some s) "hello\n" = (PResult.panic : PResult String) ∧
      fromTgf (fun s => some s) "hello\n" ≠ (PResult.err GraphError.TgfError : PResult String) := by
  constructor
  · decide
  · decide

/-- Claim C2 amended: whenever parsing reaches a pre-separator line that does
not match the regex `(\d+)\s(.+)`, `from_tgf_file` panics instead of
returning an error value; the format error is returned as a value only for
duplicate ids and undeclared edge targets. -/
theorem c2_malformed_line_panics (dec : String → Option T) (rest : List String)
    (ns : List (Node T)) (ids : List Nat) (l : String)
    (hsep : l ≠ "#") (hcap : rustCaptures l.data = none) :
    fromTgfAux dec (l :: rest) ns ids true = PResult.panic := by
  simp only [fromTgfAux, if_neg hsep, if_true, hcap]

/-- Claim C2 amended witness: the malformed line `hello` panics at the top of a
parse. -/
theorem c2_malformed_line_panics_witness :
    fromTgfAux (fun s => some s) ["hello"] [] [] true = (PResult.panic : PResult String) :=
  c2_malformed_line_panics (fun s => some s) [] [] [] "hello" (by decide) (by decide)

/-- Claim C3 counterexample: a file declaring no nodes (`#\n`) parses to a
container with `next_id = 1`, not `next_id = 0` as claimed. -/
theorem c3_counterexample :
    fromTgf (fun s => some s) "#\n" = PResult.ok (⟨1, []⟩ : Graph String) ∧
      fromTgf (fun s => some s) "#\n" ≠ PResult.ok (⟨0, []⟩ : Graph String) := by
  constructor
  · decide
  · decide

theorem fromTgfAux_ok_next_id (dec : String → Option T) (lines : List String) :
    ∀ (ns : List (Node T)) (ids : List Nat) (after : Bool) (g : Graph T),
      ids = ns.map Node.id →
      fromTgfAux dec lines ns ids after = PResult.ok g →
      g.next_id = maxFold (g.nodes.map Node.id) + 1 := by
  induction lines with
  | nil =>
    intro ns ids after g hids h
    simp only [fromTgfAux] at h
    cases h
    rw [← hids]
  | cons line rest ih =>
    intro ns ids after g hids h
    rw [fromTgfAux] at h
    by_cases hsep : line = "#"
    · rw [if_pos hsep] at h
      exact ih ns ids false g hids h
    · rw [if_neg hsep] at h
      by_cases hafter : after = true
    -- pre-separator branch
      · rw [hafter, if_pos rfl] at h
        rcases hcap : rustCaptures line.data with _ | ⟨ds, cap2⟩
        · simp only [hcap] at h
          exact PResult.noConfusion h
        · simp only [hcap] at h
          rcases hid : parseUsize ds with _ | i
          · simp only [hid] at h
            exact PResult.noConfusion h
          · simp only [hid] at h
            rcases hdec : dec (String.mk cap2) with _ | d
            · simp only [hdec] at h
              exact PResult.noConfusion h
            · simp only [hdec] at h
              by_cases hdup : (ns.any fun n => n.id == i) = true
              · rw [if_pos hdup] at h
                exact PResult.noConfusion h
              · rw [if_neg hdup] at h
                refine ih (ns ++ [Node.new i d]) (ids ++ [i]) true g ?_ h
                simp [hids, Node.new]
    -- edge branch
      · have hfalse : after = false := by
          cases after
          · rfl
          · exact absurd rfl hafter
        rw [hfalse] at h
        simp only [Bool.false_eq_true, if_false] at h
        rcases htoks : splitWs line.data with _ | ⟨t0, ts⟩
        · simp only [htoks] at h
          exact ih ns ids false g hids h
        · simp only [htoks] at h
          rcases ht0 : parseUsize t0 with _ | ni
          · simp only [ht0] at h
            exact PResult.noConfusion h
          · simp only [ht0] at h
            rcases hpe : procEdge ids ts ni ns with ns1 | e
            · simp only [hpe] at h
              have hmap := procEdge_ok_map_id ids ts ni ns ns1 hpe
              exact ih ns1 ids false g (hids.trans hmap.symm) h
            · simp only [hpe] at h
              exact PResult.noConfusion h
            · exact absurd h (by simp only [hpe]; exact PResult.noConfusion)

/-- Claim C3 amended: after a successful load, `next_id` equals one more than
the running maximum of the parsed node ids, the maximum being taken as 0
when the file declares no nodes — so an empty file yields `next_id = 1`,
not 0. -/
theorem c3_next_id_after_load (dec : String → Option T) (lines : List String)
    (g : Graph T) (h : fromTgfLines dec lines = PResult.ok g) :
    g.next_id = maxFold (g.nodes.map Node.id) + 1 :=
  fromTgfAux_ok_next_id dec lines [] [] true g rfl h

/-- Claim C3 amended witness: loading the one-node file `0 x` yields
`next_id = 0 + 1 = 1`. -/
theorem c3_next_id_after_load_witness :
    (⟨1, [⟨0, "x", []⟩]⟩ : Graph String).next_id
      = maxFold (([⟨0, "x", []⟩] : List (Node String)).map Node.id) + 1 :=
  c3_next_id_after_load (fun s => some s) ["0 x"] (⟨1, [⟨0, "x", []⟩]⟩ : Graph String)
    (by decide)

/-! ### Helper lemmas: decimal printing and its parse -/

theorem dchar_isDigit (m : Nat) : (dchar m).isDigit = true := by
  unfold dchar
  split <;> decide

theorem decGo_append (n : Nat) : ∀ acc : List Char, decGo n acc = decGo n [] ++ acc := by
  induction n using Nat.strong_induction_on with
  | _ n ih =>
    intro acc
    match n with
    | 0 => simp [decGo]
    | k + 1 =>
      rw [decGo, decGo]
      rw [ih ((k + 1) / 10) (Nat.div_lt_self (Nat.succ_pos k) (by omega)) (dchar ((k + 1) % 10) :: acc),
        ih ((k + 1) / 10) (Nat.div_lt_self (Nat.succ_pos k) (by omega)) [dchar ((k + 1) % 10)]]
      simp

theorem decGo_ne_nil (n : Nat) (hn : n ≠ 0) : decGo n [] ≠ [] := by
  match n with
  | 0 => exact absurd rfl hn
  | k + 1 =>
    rw [decGo, decGo_append]
    simp

theorem decimalRepr_ne_nil (n : Nat) : decimalRepr n ≠ [] := by
  unfold decimalRepr
  split
  · simp
  · exact decGo_ne_nil n (by assumption)

theorem decGo_digits (n : Nat) : ∀ c ∈ decGo n [], c.isDigit = true := by
  induction n using Nat.strong_induction_on with
  | _ n ih =>
    intro c hc
    match n with
    | 0 => simp [decGo] at hc
    | k + 1 =>
      rw [decGo, decGo_append] at hc
      rcases List.mem_append.mp hc with hc | hc
      · exact ih ((k + 1) / 10) (Nat.div_lt_self (Nat.succ_pos k) (by omega)) c hc
      · rw [List.mem_singleton] at hc
        exact hc ▸ dchar_isDigit _

theorem decimalRepr_digits (n : Nat) : ∀ c ∈ decimalRepr n, c.isDigit = true := by
  unfold decimalRepr
  split
  · intro c hc
    rw [List.mem_singleton] at hc
    exact hc ▸ by decide
  · exact decGo_digits n

theorem natOfDigits_append_one (l : List Char) (c : Char) :
    natOfDigits (l ++ [c]) = 10 * natOfDigits l + digitVal c := by
  unfold natOfDigits
  rw [List.foldl_append]
  rfl

theorem digitVal_dchar (m : Nat) (h : m < 10) : digitVal (dchar m) = m := by
  interval_cases m <;> decide

theorem natOfDigits_decGo (n : Nat) (hn : n ≠ 0) : natOfDigits (decGo n []) = n := by
  induction n using Nat.strong_induction_on with
  | _ n ih =>
    match n with
    | 0 => exact absurd rfl hn
    | k + 1 =>
      rw [decGo, decGo_append]
      by_cases h10 : (k + 1) / 10 = 0
      · rw [h10]
        simp only [decGo, List.nil_append]
        have hlt : k + 1 < 10 := by omega
        have : (k + 1) % 10 = k + 1 := Nat.mod_eq_of_lt hlt
        rw [this]
        show natOfDigits [dchar (k + 1)] = k + 1
        unfold natOfDigits
        simp [digitVal_dchar (k + 1) hlt]
      · rw [natOfDigits_append_one,
          ih ((k + 1) / 10) (Nat.div_lt_self (Nat.succ_pos k) (by omega)) h10,
          digitVal_dchar _ (Nat.mod_lt _ (by omega))]
        omega

theorem natOfDigits_decimalRepr (n : Nat) : natOfDigits (decimalRepr n) = n := by
  unfold decimalRepr
  split
  · rename_i h
    subst h
    decide
  · exact natOfDigits_decGo n (by assumption)

theorem decimalRepr_head_not_plus (n : Nat) : (decimalRepr n).head? ≠ some '+' := by
  rcases hd : decimalRepr n with _ | ⟨c, cs⟩
  · simp
  · have hc : c.isDigit = true := decimalRepr_digits n c (hd ▸ List.mem_cons_self _ _)
    simp only [List.head?_cons]
    intro hplus
    have hceq : c = '+' := Option.some.inj hplus
    rw [hceq] at hc
    exact absurd hc (by decide)

theorem parseUsize_decimalRepr (n : Nat) (h : n < 2 ^ 64) :
    parseUsize (decimalRepr n) = some n := by
  unfold parseUsize
  rw [if_neg (decimalRepr_head_not_plus n)]
  rw [if_pos ⟨decimalRepr_ne_nil n, by
    rw [List.all_eq_true]
    exact decimalRepr_digits n⟩]
  rw [natOfDigits_decimalRepr]
  rw [if_pos h]

/-! ### Helper lemmas: character classes, takeWhile and dropWhile -/

theorem isDigit_ne_char {c : Char} (h : c.isDigit = true) (d : Char)
    (hd : d.isDigit = false) : c ≠ d := by
  intro heq
  rw [heq, hd] at h
  exact Bool.noConfusion h

theorem digit_not_ws {c : Char} (h : c.isDigit = true) : c.isWhitespace = false := by
  cases hw : c.isWhitespace
  · rfl
  · exfalso
    simp only [Char.isWhitespace, Bool.or_eq_true, decide_eq_true_eq] at hw
    obtain ((h1 | h1) | h1) | h1 := hw <;> subst h1 <;> exact absurd h (by decide)

theorem takeWhile_append_stop {p : α → Bool} (l : List α) (hl : ∀ c ∈ l, p c = true)
    {x : α} (hx : p x = false) (r : List α) :
    (l ++ x :: r).takeWhile p = l := by
  induction l with
  | nil => simp [List.takeWhile, hx]
  | cons a as ih =>
    simp only [List.cons_append, List.takeWhile_cons, hl a (List.mem_cons_self _ _), if_true]
    rw [ih (fun c hc => hl c (List.mem_cons_of_mem _ hc))]

theorem dropWhile_append_stop {p : α → Bool} (l : List α) (hl : ∀ c ∈ l, p c = true)
    {x : α} (hx : p x = false) (r : List α) :
    (l ++ x :: r).dropWhile p = x :: r := by
  induction l with
  | nil => simp [List.dropWhile, hx]
  | cons a as ih =>
    simp only [List.cons_append, List.dropWhile_cons, hl a (List.mem_cons_self _ _), if_true]
    exact ih (fun c hc => hl c (List.mem_cons_of_mem _ hc))

theorem takeWhile_all (p : α → Bool) (l : List α) (hl : ∀ c ∈ l, p c = true) :
    l.takeWhile p = l := by
  induction l with
  | nil => rfl
  | cons a as ih =>
    simp only [List.takeWhile_cons, hl a (List.mem_cons_self _ _), if_true]
    rw [ih (fun c hc => hl c (List.mem_cons_of_mem _ hc))]

/-! ### Helper lemmas: the regex on serialized node lines -/

theorem reMatchAt_node_line (k : Nat) (e : List Char) (hne : e ≠ []) (hnl : '\n' ∉ e) :
    reMatchAt (decimalRepr k ++ ' ' :: e) = some (decimalRepr k, e) := by
  have hdig := decimalRepr_digits k
  have htake : (decimalRepr k ++ ' ' :: e).takeWhile Char.isDigit = decimalRepr k :=
    takeWhile_append_stop _ hdig (by decide) e
  have hdrop : (decimalRepr k ++ ' ' :: e).dropWhile Char.isDigit = ' ' :: e :=
    dropWhile_append_stop _ hdig (by decide) e
  have hcap : e.takeWhile (fun c => c != '\n') = e := by
    apply takeWhile_all
    intro c hc
    have : c ≠ '\n' := fun heq => hnl (heq ▸ hc)
    simp [this]
  unfold reMatchAt
  simp only [htake, hdrop, if_neg (decimalRepr_ne_nil k), hcap]
  simp [hne]

theorem rustCaptures_node_line (k : Nat) (e : List Char) (hne : e ≠ []) (hnl : '\n' ∉ e) :
    rustCaptures (decimalRepr k ++ ' ' :: e) = some (decimalRepr k, e) := by
  rcases List.exists_cons_of_ne_nil (decimalRepr_ne_nil k) with ⟨c, cs, hd⟩
  have hm := reMatchAt_node_line k e hne hnl
  rw [hd] at hm ⊢
  simp only [List.cons_append] at hm ⊢
  rw [rustCaptures, hm]

/-! ### Helper lemmas: whitespace splitting of serialized edge lines -/

theorem splitWsAux_nonws (tok : List Char) (hws : ∀ c ∈ tok, c.isWhitespace = false) :
    ∀ (acc rest : List Char), splitWsAux acc (tok ++ rest) = splitWsAux (tok.reverse ++ acc) rest := by
  induction tok with
  | nil =>
    intro acc rest
    simp
  | cons c tok ih =>
    intro acc rest
    simp only [List.cons_append, splitWsAux, hws c (List.mem_cons_self _ _),
      Bool.false_eq_true, if_false, List.append_eq]
    rw [ih (fun d hd => hws d (List.mem_cons_of_mem _ hd)) (c :: acc) rest]
    simp

theorem splitWs_token_cons (tok : List Char) (htok : tok ≠ [])
    (hws : ∀ c ∈ tok, c.isWhitespace = false) (rest : List Char) :
    splitWs (tok ++ ' ' :: rest) = tok :: splitWs rest := by
  unfold splitWs
  rw [splitWsAux_nonws tok hws [] (' ' :: rest)]
  rw [List.append_nil, splitWsAux]
  simp only [Char.isWhitespace]
  rw [if_pos (by decide)]
  rw [if_neg (by simpa using htok)]
  simp

theorem splitWs_token_only (tok : List Char) (htok : tok ≠ [])
    (hws : ∀ c ∈ tok, c.isWhitespace = false) :
    splitWs tok = [tok] := by
  unfold splitWs
  have := splitWsAux_nonws tok hws [] []
  rw [List.append_nil] at this
  rw [this, List.append_nil, splitWsAux]
  rw [if_neg (by simpa using htok)]
  simp

theorem splitWs_decimal_parts (ps : List Nat) :
    ∀ (pre : List Char), pre ≠ [] → (∀ c ∈ pre, c.isWhitespace = false) →
      splitWs (pre ++ (ps.map (fun p => ' ' :: decimalRepr p)).flatten)
        = pre :: ps.map decimalRepr := by
  induction ps with
  | nil =>
    intro pre hpre hws
    simp only [List.map_nil, List.flatten_nil, List.append_nil]
    rw [splitWs_token_only pre hpre hws]
  | cons p ps ih =>
    intro pre hpre hws
    simp only [List.map_cons, List.flatten_cons, List.cons_append]
    rw [show pre ++ (' ' :: (decimalRepr p ++ (ps.map (fun q => ' ' :: decimalRepr q)).flatten))
      = pre ++ ' ' :: (decimalRepr p ++ (ps.map (fun q => ' ' :: decimalRepr q)).flatten) from rfl]
    rw [splitWs_token_cons pre hpre hws]
    rw [ih (decimalRepr p) (decimalRepr_ne_nil p)
      (fun c hc => digit_not_ws (decimalRepr_digits p c hc))]

/-! ### Helper lemmas: line splitting of the serialized text -/

theorem stripCr_eq {l : List Char} (h : l.getLast? ≠ some '\r') : stripCr l = l := by
  unfold stripCr
  rw [if_neg h]

theorem splitLinesAux_line {l : List Char} (hnl : '\n' ∉ l) :
    ∀ (acc rest : List Char),
      splitLinesAux acc (l ++ '\n' :: rest)
        = stripCr (acc.reverse ++ l) :: splitLinesAux [] rest := by
  induction l with
  | nil =>
    intro acc rest
    simp [splitLinesAux]
  | cons c l ih =>
    intro acc rest
    have hc : c ≠ '\n' := fun heq => hnl (heq ▸ List.mem_cons_self _ _)
    simp only [List.cons_append, splitLinesAux, if_neg hc, List.append_eq]
    rw [ih (fun hm => hnl (List.mem_cons_of_mem _ hm)) (c :: acc) rest]
    simp

theorem splitLinesAux_flat (lls : List (List Char))
    (h : ∀ l ∈ lls, '\n' ∉ l ∧ l.getLast? ≠ some '\r') :
    splitLinesAux [] ((lls.map (fun l => l ++ ['\n'])).flatten) = lls := by
  induction lls with
  | nil => rfl
  | cons l lls ih =>
    simp only [List.map_cons, List.flatten_cons]
    rw [show (l ++ ['\n']) ++ (lls.map (fun x => x ++ ['\n'])).flatten
      = l ++ '\n' :: (lls.map (fun x => x ++ ['\n'])).flatten by simp]
    rw [splitLinesAux_line (h l (List.mem_cons_self _ _)).1 [] _]
    rw [List.reverse_nil, List.nil_append,
      stripCr_eq (h l (List.mem_cons_self _ _)).2]
    rw [ih (fun x hx => h x (List.mem_cons_of_mem _ hx))]

/-! ### Helper lemmas: the serialized text as a list of lines -/

/-- The character contents of the node lines of a node list. -/
def nodeLines (enc : T → String) (ns : List (Node T)) : List (List Char) :=
  ns.map (nodeLineChars enc)

/-- The character contents of the (nonempty) edge lines of a node list. -/
def edgeLines (ns : List (Node T)) : List (List Char) :=
  ns.filterMap (fun n => if n.paths.length > 0 then some (edgeLineChars n) else none)

/-- All lines of the serialized text, in order. -/
def allLineChars (enc : T → String) (g : Graph T) : List (List Char) :=
  nodeLines enc g.nodes ++ [['#']] ++ edgeLines g.nodes

theorem join_data (ls : List String) :
    (String.join ls).data = (ls.map String.data).flatten := by
  have haux : ∀ (ls : List String) (s : String),
      (ls.foldl (fun a b => a ++ b) s).data = s.data ++ (ls.map String.data).flatten := by
    intro ls
    induction ls with
    | nil =>
      intro s
      simp
    | cons a as ih =>
      intro s
      simp only [List.foldl_cons, List.map_cons, List.flatten_cons]
      rw [ih (s ++ a), String.data_append, List.append_assoc]
  have : String.join ls = ls.foldl (fun a b => a ++ b) "" := rfl
  rw [this, haux]
  rfl

theorem edge_strings_data (ns : List (Node T)) :
    (ns.map (fun n => (Node.get_tgf_paths n).data)).flatten
      = ((edgeLines ns).map (fun l => l ++ ['\n'])).flatten := by
  induction ns with
  | nil => rfl
  | cons n ns ih =>
    by_cases h : n.paths.length > 0
    · rw [List.map_cons, List.flatten_cons, ih]
      rw [show (Node.get_tgf_paths n).data = edgeLineChars n ++ ['\n'] by
        unfold Node.get_tgf_paths
        rw [if_pos h]]
      rw [show edgeLines (n :: ns) = edgeLineChars n :: edgeLines ns by
        unfold edgeLines
        rw [List.filterMap_cons]
        simp [h]]
      rw [List.map_cons, List.flatten_cons]
    · rw [List.map_cons, List.flatten_cons, ih]
      rw [show (Node.get_tgf_paths n).data = [] by
        unfold Node.get_tgf_paths
        rw [if_neg h]]
      rw [show edgeLines (n :: ns) = edgeLines ns by
        unfold edgeLines
        rw [List.filterMap_cons]
        simp [h]]
      rw [List.nil_append]

theorem get_tgf_data (enc : T → String) (g : Graph T) :
    (g.get_tgf enc).data = ((allLineChars enc g).map (fun l => l ++ ['\n'])).flatten := by
  unfold Graph.get_tgf allLineChars
  rw [String.data_append, String.data_append, join_data, join_data]
  rw [List.map_append, List.map_append, List.flatten_append, List.flatten_append]
  congr 1
  · congr 1
    unfold nodeLines
    rw [List.map_map, List.map_map]
    rfl
  · rw [List.map_map]
    exact edge_strings_data g.nodes

theorem getLast?_append_right (l1 : List α) {l2 : List α} (h : l2 ≠ []) :
    (l1 ++ l2).getLast? = l2.getLast? := by
  rw [List.getLast?_append]
  rcases hx : l2.getLast? with _ | x
  · exact absurd (by simpa using hx) h
  · rfl

theorem nodeLineChars_no_newline (enc : T → String) (n : Node T)
    (hnl : '\n' ∉ (enc n.data).data) : '\n' ∉ nodeLineChars enc n := by
  unfold nodeLineChars
  intro hmem
  rcases List.mem_append.mp hmem with hmem | hmem
  · exact absurd (decimalRepr_digits _ _ hmem) (by decide)
  · rcases List.mem_cons.mp hmem with hmem | hmem
    · exact absurd hmem (by decide)
    · exact hnl hmem

theorem nodeLineChars_last (enc : T → String) (n : Node T)
    (hne : (enc n.data).data ≠ []) (hcr : (enc n.data).data.getLast? ≠ some '\r') :
    (nodeLineChars enc n).getLast? ≠ some '\r' := by
  unfold nodeLineChars
  rw [getLast?_append_right _ (by simp)]
  rw [show (' ' :: (enc n.data).data) = [' '] ++ (enc n.data).data from rfl]
  rw [getLast?_append_right _ hne]
  exact hcr

theorem edgeLineChars_mem (n : Node T) (c : Char) (hc : c ∈ edgeLineChars n) :
    c.isDigit = true ∨ c = ' ' := by
  unfold edgeLineChars at hc
  rcases List.mem_append.mp hc with hc | hc
  · exact Or.inl (decimalRepr_digits _ _ hc)
  · rcases List.mem_flatten.mp hc with ⟨l, hl, hcl⟩
    rcases List.mem_map.mp hl with ⟨p, _, hp⟩
    subst hp
    rcases List.mem_cons.mp hcl with hcl | hcl
    · exact Or.inr hcl
    · exact Or.inl (decimalRepr_digits _ _ hcl)

theorem edgeLineChars_no_newline (n : Node T) : '\n' ∉ edgeLineChars n := by
  intro hmem
  rcases edgeLineChars_mem n '\n' hmem with h | h
  · exact absurd h (by decide)
  · exact absurd h (by decide)

theorem edgeLineChars_last (n : Node T) : (edgeLineChars n).getLast? ≠ some '\r' := by
  intro hlast
  have hmem : '\r' ∈ edgeLineChars n := List.mem_of_mem_getLast? hlast
  rcases edgeLineChars_mem n '\r' hmem with h | h
  · exact absurd h (by decide)
  · exact absurd h (by decide)

theorem allLineChars_ok (enc : T → String) (g : Graph T)
    (hne : ∀ t, (enc t).data ≠ [])
    (hnl : ∀ t, '\n' ∉ (enc t).data)
    (hcr : ∀ t, (enc t).data.getLast? ≠ some '\r') :
    ∀ l ∈ allLineChars enc g, '\n' ∉ l ∧ l.getLast? ≠ some '\r' := by
  intro l hl
  unfold allLineChars at hl
  rcases List.mem_append.mp hl with hl | hl
  · rcases List.mem_append.mp hl with hl | hl
    · rcases List.mem_map.mp hl with ⟨n, _, hn⟩
      subst hn
      exact ⟨nodeLineChars_no_newline enc n (hnl n.data),
        nodeLineChars_last enc n (hne n.data) (hcr n.data)⟩
    · rw [List.mem_singleton] at hl
      subst hl
      exact ⟨by decide, by decide⟩
  · unfold edgeLines at hl
    rcases List.mem_filterMap.mp hl with ⟨n, _, hn⟩
    by_cases h : n.paths.length > 0
    · rw [if_pos h] at hn
      cases hn
      exact ⟨edgeLineChars_no_newline n, edgeLineChars_last n⟩
    · rw [if_neg h] at hn
      exact Option.noConfusion hn

theorem linesOf_get_tgf (enc : T → String) (g : Graph T)
    (hne : ∀ t, (enc t).data ≠ [])
    (hnl : ∀ t, '\n' ∉ (enc t).data)
    (hcr : ∀ t, (enc t).data.getLast? ≠ some '\r') :
    linesOf (g.get_tgf enc) = (allLineChars enc g).map String.mk := by
  unfold linesOf
  rw [get_tgf_data, splitLinesAux_flat _ (allLineChars_ok enc g hne hnl hcr)]

/-! ### Helper lemmas: parsing the serialized lines back -/

theorem modifyIdx_id (i : Nat) (l : List α) : modifyIdx (fun a => a) i l = l := by
  induction l generalizing i with
  | nil => cases i <;> rfl
  | cons a as ih =>
    cases i with
    | zero => rfl
    | succ j => simp [modifyIdx, ih]

theorem modifyIdx_modifyIdx (f h : α → α) (i : Nat) (l : List α) :
    modifyIdx f i (modifyIdx h i l) = modifyIdx (fun a => f (h a)) i l := by
  induction l generalizing i with
  | nil => cases i <;> rfl
  | cons a as ih =>
    cases i with
    | zero => rfl
    | succ j => simp [modifyIdx, ih]

theorem modifyIdx_at_length (f : α → α) (l : List α) (a : α) (r : List α) :
    modifyIdx f l.length (l ++ a :: r) = l ++ f a :: r := by
  induction l with
  | nil => rfl
  | cons x xs ih => simp [modifyIdx, ih]

theorem nodeLine_ne_hash (enc : T → String) (m : Node T)
    (hne : (enc m.data).data ≠ []) :
    String.mk (nodeLineChars enc m) ≠ "#" := by
  intro heq
  have hdata : nodeLineChars enc m = ['#'] := by
    have := congrArg String.data heq
    simpa using this
  have hlen := congrArg List.length hdata
  unfold nodeLineChars at hlen
  rw [List.length_append, List.length_cons] at hlen
  have h1 : 0 < (decimalRepr m.id).length := List.length_pos.mpr (decimalRepr_ne_nil m.id)
  have h2 : 0 < (enc m.data).data.length := List.length_pos.mpr hne
  simp at hlen
  omega

theorem fromTgfAux_node_lines (dec : String → Option T) (enc : T → String)
    (hdec : ∀ t, dec (enc t) = some t)
    (hne : ∀ t, (enc t).data ≠ [])
    (hnl : ∀ t, '\n' ∉ (enc t).data) :
    ∀ (ms : List (Node T)) (rest : List String) (ns : List (Node T)) (ids : List Nat),
      (∀ m ∈ ms, m.id < 2 ^ 64) →
      ids = ns.map Node.id →
      (ns.map Node.id ++ ms.map Node.id).Nodup →
      fromTgfAux dec ((ms.map (fun m => String.mk (nodeLineChars enc m))) ++ rest) ns ids true
        = fromTgfAux dec rest (ns ++ ms.map (fun m => Node.new m.id m.data))
            (ids ++ ms.map Node.id) true := by
  intro ms
  induction ms with
  | nil =>
    intro rest ns ids _ _ _
    simp
  | cons m ms ih =>
    intro rest ns ids hbound hids hnodup
    rw [List.map_cons, List.cons_append, fromTgfAux]
    rw [if_neg (nodeLine_ne_hash enc m (hne m.data))]
    rw [if_pos rfl]
    have hcap : rustCaptures (String.mk (nodeLineChars enc m)).data
        = some (decimalRepr m.id, (enc m.data).data) := by
      show rustCaptures (nodeLineChars enc m) = _
      unfold nodeLineChars
      exact rustCaptures_node_line m.id _ (hne m.data) (hnl m.data)
    simp only [hcap, parseUsize_decimalRepr m.id (hbound m (List.mem_cons_self _ _))]
    rw [show String.mk (enc m.data).data = enc m.data from rfl]
    simp only [hdec m.data]
    have hdup : (ns.any fun n => n.id == m.id) = false := by
      rcases hany : ns.any fun n => n.id == m.id
      · rfl
      · exfalso
        rcases List.any_eq_true.mp hany with ⟨x, hx, hxid⟩
        have hxm : x.id = m.id := by simpa using hxid
        have hdisj := (List.nodup_append.mp hnodup).2.2
        exact hdisj (hxm ▸ List.mem_map_of_mem Node.id hx)
          (List.map_cons Node.id m ms ▸ List.mem_cons_self _ _)
    rw [hdup]
    simp only [Bool.false_eq_true, if_false]
    have hmap_eq : (ns ++ [Node.new m.id m.data]).map Node.id ++ ms.map Node.id
        = ns.map Node.id ++ (m :: ms).map Node.id := by
      simp [Node.new]
    rw [ih rest (ns ++ [Node.new m.id m.data]) (ids ++ [m.id])
      (fun x hx => hbound x (List.mem_cons_of_mem _ hx))
      (by simp [hids, Node.new])
      (hmap_eq ▸ hnodup)]
    simp [List.append_assoc]

theorem fromTgfAux_sep (dec : String → Option T) (rest : List String)
    (ns : List (Node T)) (ids : List Nat) (after : Bool) :
    fromTgfAux dec (("#" : String) :: rest) ns ids after
      = fromTgfAux dec rest ns ids false := by
  rw [fromTgfAux, if_pos rfl]

theorem procEdge_decimals (ids : List Nat) (ni : Nat) :
    ∀ (ps : List Nat) (ns : List (Node T)),
      (∀ p ∈ ps, p < 2 ^ 64 ∧ ids.contains p = true) →
      procEdge ids (ps.map decimalRepr) ni ns
        = EdgeStep.next (modifyIdx (fun nd => ps.foldl Node.add_path nd) ni ns) := by
  intro ps
  induction ps with
  | nil =>
    intro ns _
    rw [List.map_nil]
    show EdgeStep.next ns = _
    rw [show (fun nd : Node T => List.foldl Node.add_path nd []) = fun nd => nd from rfl]
    rw [modifyIdx_id]
  | cons p ps ih =>
    intro ns h
    rw [List.map_cons]
    have hp := h p (List.mem_cons_self _ _)
    simp only [procEdge, parseUsize_decimalRepr p hp.1, hp.2, if_pos]
    rw [ih (modifyIdx (fun nd => nd.add_path p) ni ns)
      (fun q hq => h q (List.mem_cons_of_mem _ hq))]
    rw [modifyIdx_modifyIdx]
    rfl

theorem edgeLine_ne_hash (m : Node T) (hp : m.paths.length > 0) :
    String.mk (edgeLineChars m) ≠ "#" := by
  intro heq
  have hdata : edgeLineChars m = ['#'] := by
    have := congrArg String.data heq
    simpa using this
  have hlen := congrArg List.length hdata
  unfold edgeLineChars at hlen
  rcases hps : m.paths with _ | ⟨q, qs⟩
  · rw [hps] at hp
    simp at hp
  · rw [hps, List.map_cons] at hlen
    rw [List.length_append, List.flatten_cons, List.length_append, List.length_cons] at hlen
    have h1 : 0 < (decimalRepr m.id).length := List.length_pos.mpr (decimalRepr_ne_nil m.id)
    have h2 : 0 < (decimalRepr q).length := List.length_pos.mpr (decimalRepr_ne_nil q)
    simp at hlen
    omega

theorem fromTgfAux_edge_lines (dec : String → Option T) :
    ∀ (ms : List (Node T)) (ns : List (Node T)) (ids : List Nat),
      (∀ m ∈ ms, m.id < 2 ^ 64) →
      (∀ m ∈ ms, ∀ p ∈ m.paths, p < 2 ^ 64 ∧ ids.contains p = true) →
      fromTgfAux dec ((edgeLines ms).map String.mk) ns ids false
        = PResult.ok ⟨maxFold ids + 1,
            ms.foldl (fun acc m =>
              modifyIdx (fun nd => m.paths.foldl Node.add_path nd) m.id acc) ns⟩ := by
  intro ms
  induction ms with
  | nil =>
    intro ns ids _ _
    rfl
  | cons m ms ih =>
    intro ns ids hbound htarg
    rw [List.foldl_cons]
    by_cases hp : m.paths.length > 0
    · rw [show edgeLines (m :: ms) = edgeLineChars m :: edgeLines ms by
        unfold edgeLines
        rw [List.filterMap_cons]
        simp [hp]]
      rw [List.map_cons, fromTgfAux]
      rw [if_neg (edgeLine_ne_hash m hp)]
      simp only [Bool.false_eq_true, if_false]
      have htoks : splitWs (String.mk (edgeLineChars m)).data
          = decimalRepr m.id :: m.paths.map decimalRepr := by
        show splitWs (edgeLineChars m) = _
        unfold edgeLineChars
        exact splitWs_decimal_parts m.paths (decimalRepr m.id) (decimalRepr_ne_nil m.id)
          (fun c hc => digit_not_ws (decimalRepr_digits m.id c hc))
      simp only [htoks, parseUsize_decimalRepr m.id (hbound m (List.mem_cons_self _ _))]
      rw [procEdge_decimals ids m.id m.paths ns (htarg m (List.mem_cons_self _ _))]
      exact ih _ ids (fun x hx => hbound x (List.mem_cons_of_mem _ hx))
        (fun x hx => htarg x (List.mem_cons_of_mem _ hx))
    · rw [show edgeLines (m :: ms) = edgeLines ms by
        unfold edgeLines
        rw [List.filterMap_cons]
        simp [hp]]
      have hnil : m.paths = [] := by
        rcases hps : m.paths with _ | _
        · rfl
        · rw [hps] at hp
          simp at hp
      rw [show modifyIdx (fun nd => m.paths.foldl Node.add_path nd) m.id ns = ns by
        rw [hnil]
        exact modifyIdx_id m.id ns]
      exact ih ns ids (fun x hx => hbound x (List.mem_cons_of_mem _ hx))
        (fun x hx => htarg x (List.mem_cons_of_mem _ hx))

theorem foldl_add_path_from (i : Nat) (d : T) :
    ∀ (ps pre : List Nat), (pre ++ ps).Nodup →
      ps.foldl Node.add_path ⟨i, d, pre⟩ = ⟨i, d, pre ++ ps⟩ := by
  intro ps
  induction ps with
  | nil =>
    intro pre _
    simp
  | cons p ps ih =>
    intro pre hnd
    rw [List.foldl_cons]
    have hpnotin : p ∉ pre := by
      rcases List.nodup_append.mp hnd with ⟨_, _, hdisj⟩
      intro hmem
      exact hdisj hmem (List.mem_cons_self _ _)
    rw [show (Node.mk i d pre).add_path p = ⟨i, d, pre ++ [p]⟩ by
      unfold Node.add_path
      simp [hpnotin]]
    have hnd' : ((pre ++ [p]) ++ ps).Nodup := by
      rw [List.append_assoc, List.singleton_append]
      exact hnd
    rw [ih (pre ++ [p]) hnd']
    simp

theorem modifyIdx_at (f : α → α) (l : List α) (a : α) (r : List α) (i : Nat)
    (h : i = l.length) : modifyIdx f i (l ++ a :: r) = l ++ f a :: r :=
  h ▸ modifyIdx_at_length f l a r

theorem restore_nodes :
    ∀ (todo done : List (Node T)),
      todo.map Node.id = List.range' done.length todo.length →
      (∀ m ∈ todo, m.paths.Nodup) →
      todo.foldl (fun acc m =>
          modifyIdx (fun nd => m.paths.foldl Node.add_path nd) m.id acc)
        (done ++ todo.map (fun m => Node.new m.id m.data)) = done ++ todo := by
  intro todo
  induction todo with
  | nil =>
    intro done _ _
    simp
  | cons m todo ih =>
    intro done hid hnodup
    rw [List.map_cons, List.length_cons, List.range'_succ] at hid
    have hmid : m.id = done.length := by
      have := congrArg List.head? hid
      simpa using this
    have htid : todo.map Node.id = List.range' (done.length + 1) todo.length := by
      have := congrArg List.tail hid
      simpa using this
    rw [List.map_cons, List.foldl_cons]
    rw [modifyIdx_at (fun nd => m.paths.foldl Node.add_path nd) done _ _ _ hmid]
    have hrestore : m.paths.foldl Node.add_path (Node.new m.id m.data) = m := by
      show m.paths.foldl Node.add_path ⟨m.id, m.data, []⟩ = m
      rw [foldl_add_path_from m.id m.data m.paths []
        (by simpa using hnodup m (List.mem_cons_self _ _))]
      rw [List.nil_append]
    rw [hrestore]
    rw [show done ++ m :: todo.map (fun m => Node.new m.id m.data)
      = (done ++ [m]) ++ todo.map (fun m => Node.new m.id m.data) by simp]
    rw [ih (done ++ [m]) (by simpa using htid)
      (fun x hx => hnodup x (List.mem_cons_of_mem _ hx))]
    simp

/-! ### The round-trip claim -/

/-- Claim C1 counterexample: the container with one node of id 0 and `next_id = 2`
(the state reached by adding two nodes and removing node 1) satisfies the
claim's preconditions — its node ids are the gap-free ascending sequence
`[0]` and the payload encoding is round-trip-stable — yet parsing its
serialization yields `next_id = 1`, not the original container: the
parser recomputes the counter as max id + 1 and forgets the original. -/
theorem c1_counterexample :
    fromTgf (fun _ => some ()) ((⟨2, [⟨0, (), []⟩]⟩ : Graph Unit).get_tgf (fun _ => "0"))
        = PResult.ok (⟨1, [⟨0, (), []⟩]⟩ : Graph Unit) ∧
      fromTgf (fun _ => some ()) ((⟨2, [⟨0, (), []⟩]⟩ : Graph Unit).get_tgf (fun _ => "0"))
        ≠ PResult.ok (⟨2, [⟨0, (), []⟩]⟩ : Graph Unit) := by
  constructor
  · decide
  · decide

/-- Claim C1 amended: parsing the serialized text reproduces the container
exactly, for every container whose node ids are gap-free ascending from 0
in storage order, whose `next_id` equals max id + 1 (the value the parser
recomputes), whose adjacency lists are duplicate-free and reference only
present nodes, with at most `2^64` nodes, provided the payload encoding is
round-trip-stable and single-line (nonempty, no newline, no trailing
carriage return) — as a JSON encoding is. -/
theorem c1_round_trip (enc : T → String) (dec : String → Option T) (g : Graph T)
    (hdec : ∀ t, dec (enc t) = some t)
    (hne : ∀ t, (enc t).data ≠ [])
    (hnl : ∀ t, '\n' ∉ (enc t).data)
    (hcr : ∀ t, (enc t).data.getLast? ≠ some '\r')
    (hids : g.nodes.map Node.id = List.range g.nodes.length)
    (hnext : g.next_id = maxFold (g.nodes.map Node.id) + 1)
    (hpaths : ∀ n ∈ g.nodes, n.paths.Nodup)
    (htarg : ∀ n ∈ g.nodes, ∀ p ∈ n.paths, p < g.nodes.length)
    (hbnd : g.nodes.length ≤ 2 ^ 64) :
    fromTgf dec (g.get_tgf enc) = PResult.ok g := by
  have hidlt : ∀ m ∈ g.nodes, m.id < g.nodes.length := by
    intro m hm
    have hmem : m.id ∈ g.nodes.map Node.id := List.mem_map_of_mem Node.id hm
    rw [hids, List.mem_range] at hmem
    exact hmem
  unfold fromTgf fromTgfLines
  rw [linesOf_get_tgf enc g hne hnl hcr]
  unfold allLineChars
  rw [List.map_append, List.map_append]
  have hnodeLines : (nodeLines enc g.nodes).map String.mk
      = g.nodes.map (fun m => String.mk (nodeLineChars enc m)) := by
    unfold nodeLines
    rw [List.map_map]
    rfl
  rw [hnodeLines]
  rw [show ([['#']] : List (List Char)).map String.mk = ["#"] from rfl]
  rw [List.append_assoc, List.singleton_append]
  rw [fromTgfAux_node_lines dec enc hdec hne hnl g.nodes _ [] []
    (fun m hm => lt_of_lt_of_le (hidlt m hm) hbnd)
    rfl
    (by
      rw [List.map_nil, List.nil_append, hids]
      exact List.nodup_range _)]
  rw [List.nil_append, List.nil_append]
  rw [fromTgfAux_sep]
  rw [fromTgfAux_edge_lines dec g.nodes _ _
    (fun m hm => lt_of_lt_of_le (hidlt m hm) hbnd)
    (fun m hm p hp => ⟨lt_of_lt_of_le (htarg m hm p hp) hbnd, by
      rw [List.elem_iff, hids, List.mem_range]
      exact htarg m hm p hp⟩)]
  have hres := restore_nodes g.nodes []
    (by
      rw [List.length_nil, ← List.range_eq_range']
      exact hids)
    hpaths
  rw [List.nil_append, List.nil_append] at hres
  rw [hres, ← hnext]

/-- Claim C1 amended witness: round-tripping a concrete two-node cycle with a
constant stable unit encoding reproduces it exactly. -/
theorem c1_round_trip_witness :
    fromTgf (fun _ => some ())
        ((⟨2, [⟨0, (), [1]⟩, ⟨1, (), [0]⟩]⟩ : Graph Unit).get_tgf (fun _ => "0"))
      = PResult.ok (⟨2, [⟨0, (), [1]⟩, ⟨1, (), [0]⟩]⟩ : Graph Unit) :=
  c1_round_trip (fun _ => "0") (fun _ => some ())
    (⟨2, [⟨0, (), [1]⟩, ⟨1, (), [0]⟩]⟩ : Graph Unit)
    (fun _ => rfl)
    (by
      intro t
      show ("0" : String).data ≠ []
      decide)
    (by
      intro t
      show '\n' ∉ ("0" : String).data
      decide)
    (by
      intro t
      show ("0" : String).data.getLast? ≠ some '\r'
      decide)
    (by decide) (by decide) (by decide) (by decide) (by decide)

end TGF
